import Mathlib

/-!
Verification development for the swarm identifier / logical-clock core:
the Lamport clock (`LamportClock.js`) and the compound identifier
(`swarm-protocol/src/Spec.js`).  Strings are embedded as `List Char`;
JavaScript exceptions are embedded as `Option`/`none`; the mutable clock
is embedded by explicit state passing.
-/

namespace Swarm

/-- Modelled from the spec: the external base64 codec's 64-character
alphabet (digits, upper case, `_`, lower case, `~`) used by tokens and by
the clock's integer encoding. -/
def b64abet : List Char :=
  "0123456789ABCDEFGHIJKLMNOPQRSTUVWXYZ_abcdefghijklmnopqrstuvwxyz~".toList

/-- A character of the restricted token alphabet. -/
def isB64 (c : Char) : Bool := b64abet.contains c

/-- Modelled from the spec: the digit value of an alphabet character
(`base64.base2int` reads digits by their alphabet index). -/
def b64val (c : Char) : Nat := b64abet.indexOf c

/-- Modelled from the spec: the alphabet character of a digit value
(`base64.int2base` writes digits by alphabet index). -/
def b64digit (d : Nat) : Char := b64abet.getD d '0'

/-- A bare token: a nonempty run of alphabet characters
(modelled from the spec's token grammar `base64.reTok`). -/
def tokB (t : List Char) : Bool := !t.isEmpty && t.all isB64

/-- Modelled from the spec: `base64.base2int`, big-endian base-64 decode. -/
def base2int (s : List Char) : Nat := s.foldl (fun a c => a * 64 + b64val c) 0

/-- Little-endian base-64 digit list of a natural number (empty for 0). -/
def natB64Rev : Nat → List Nat
  | 0 => []
  | n + 1 => ((n + 1) % 64) :: natB64Rev ((n + 1) / 64)
decreasing_by exact Nat.div_lt_self (Nat.succ_pos n) (by norm_num)

/-- Modelled from the spec: `base64.int2base n w`, the fixed-width base-64
encoding of `n`: the base-64 digits of `n`, left-padded with `'0'` digits
to width `w` (wider only when `n` needs more than `w` digits). -/
def int2base (n w : Nat) : List Char :=
  let ds := natB64Rev n
  ((ds ++ List.replicate (w - ds.length) 0).reverse).map b64digit

/-- State of `LamportClock` (`LamportClock.js`): an immutable process id
and the monotone sequence counter `seq`. -/
structure LamportClock where
  id : List Char
  seq : Nat
deriving DecidableEq

/-- `new LamportClock(processId)`: rejects a process id that fails the
token grammar, otherwise starts with `seq = 0`. -/
def makeClock (processId : List Char) : Option LamportClock :=
  if tokB processId then some ⟨processId, 0⟩ else none

/-- `LamportClock.prototype.issueTimestamp`: returns
`int2base(seq, 5) + '+' + id` and post-increments `seq`. -/
def issueTimestamp (c : LamportClock) : List Char × LamportClock :=
  (int2base c.seq 5 ++ '+' :: c.id, ⟨c.id, c.seq + 1⟩)

/-- `LamportClock.prototype.parseTimestamp`: matches the timestamp
grammar `<base64-token>+<base64-token>` (modelled from the spec:
`LamportTimestamp.reTokExt` is external), returning the decoded
sequence number and the process string; `none` embeds the thrown
`malformed timestamp` error. -/
def parseTimestamp (ts : List Char) : Option (Nat × List Char) :=
  let v := ts.takeWhile (fun c => c ≠ '+')
  match ts.dropWhile (fun c => c ≠ '+') with
  | '+' :: o => if tokB v && tokB o then some (base2int v, o) else none
  | _ => none

/-- `LamportClock.prototype.checkTimestamp` (`Observe`): parses `ts`
(the parse error propagates, leaving the clock untouched); if the decoded
sequence is `>= seq`, sets `seq` to it plus one; returns `true`. -/
def checkTimestamp (c : LamportClock) (ts : List Char) :
    Option Bool × LamportClock :=
  match parseTimestamp ts with
  | none => (none, c)
  | some (k, _) => (some true, if c.seq ≤ k then ⟨c.id, k + 1⟩ else c)

/-- `LamportClock.prototype.adjustTime`: an explicit no-op. -/
def adjustTime (c : LamportClock) : LamportClock := c

/-- `LamportClock.prototype.time2date`: returns `undefined`, touching
nothing. -/
def time2date (_c : LamportClock) : Option Unit := none

/-- `n` consecutive `issueTimestamp` calls: the issued strings in order
and the final clock. -/
def issueN : Nat → LamportClock → List (List Char) × LamportClock
  | 0, c => ([], c)
  | n + 1, c =>
    let p := issueTimestamp c
    let q := issueN n p.2
    (p.1 :: q.1, q.2)

/-- Modelled from the spec: the external `Stamp` token — a base64 value
paired with a base64 origin process id, origin `"0"` meaning a bare
value. -/
structure Stamp where
  value : List Char
  origin : List Char
deriving DecidableEq

/-- The shared `Stamp.ZERO` sentinel value `("0","0")`. -/
def stampZero : Stamp := ⟨['0'], ['0']⟩

/-- Modelled from the spec: parsing a token text `value` or
`value+origin` into a `Stamp` (split at the `+`; the origin defaults to
`"0"`). -/
def stampParse (t : List Char) : Stamp :=
  let v := t.takeWhile (fun c => c ≠ '+')
  match t.dropWhile (fun c => c ≠ '+') with
  | '+' :: o => ⟨v, o⟩
  | _ => ⟨v, ['0']⟩

/-- `new Stamp(x)` applied to a regex capture: an unmatched capture is
`undefined` and yields a fresh zero stamp, a matched capture is parsed. -/
def stampNew : Option (List Char) → Stamp
  | none => stampZero
  | some t => stampParse t

/-- Modelled from the spec: `Stamp.toString` — the value, followed by
`+origin` only when the origin differs from `"0"`. -/
def stampToString (s : Stamp) : List Char :=
  s.value ++ (if s.origin = ['0'] then [] else '+' :: s.origin)

/-- `Stamp.isZero`: the value part is zero. -/
def stampIsZero (s : Stamp) : Bool := s.value = ['0']

/-- `Stamp.isEmpty`: value and origin are both zero. -/
def stampIsEmpty (s : Stamp) : Bool := s = stampZero

/-- Both halves of a stamp are grammar-conformant bare tokens. -/
def stampWF (s : Stamp) : Bool := tokB s.value && tokB s.origin

/-- A token text accepted by the extended token grammar
`tok(+tok)?`. -/
def stampTextOk (s : List Char) : Bool :=
  tokB (s.takeWhile (fun c => c ≠ '+')) &&
    (match s.dropWhile (fun c => c ≠ '+') with
     | [] => true
     | '+' :: o => tokB o
     | _ => false)

/-- The 4-slot state of a `Spec` (`Spec.js`, field `_toks`).  Each slot
is either the shared `Stamp.ZERO` object it was initialized with
(embedded as `none`) or a distinct `Stamp` object assigned later
(embedded as `some`); JavaScript's `!==` on a slot against the all-zero
default baseline is exactly this distinction. -/
structure Spec where
  t0 : Option Stamp
  t1 : Option Stamp
  t2 : Option Stamp
  t3 : Option Stamp
deriving DecidableEq

/-- `new Spec()` (also `Spec.NON_SPECIFIC_NOOP`): all four slots still
hold the shared `Stamp.ZERO`. -/
def emptySpec : Spec := ⟨none, none, none, none⟩

/-- The token value a slot denotes: the shared sentinel denotes
`Stamp.ZERO`. -/
def tokOf (t : Option Stamp) : Stamp := t.getD stampZero

/-- Structural equality of Specs: all four tokens structurally equal. -/
def specEquiv (a b : Spec) : Bool :=
  decide (tokOf a.t0 = tokOf b.t0) && decide (tokOf a.t1 = tokOf b.t1) &&
    decide (tokOf a.t2 = tokOf b.t2) && decide (tokOf a.t3 = tokOf b.t3)

/-- Span of alphabet characters: the leading base64 run and the rest. -/
def scanRun : List Char → List Char × List Char
  | [] => ([], [])
  | c :: rest =>
    if isB64 c then
      let p := scanRun rest
      (c :: p.1, p.2)
    else ([], c :: rest)

/-- One optional regex group `(?:<quant>(tok(+tok)?))?` of `Spec.reSpec`,
matched greedily at the head of `s`: the capture (if the group
participates) and the remaining input.  Greedy matching is equivalent to
the regex here because no quant character is in the token alphabet. -/
def grabGroup (q : Char) (s : List Char) : Option (List Char) × List Char :=
  match s with
  | [] => (none, [])
  | c :: rest =>
    if c = q then
      let p := scanRun rest
      if p.1 = [] then (none, c :: rest)
      else
        match p.2 with
        | c2 :: r2 =>
          if c2 = '+' then
            let p2 := scanRun r2
            if p2.1 = [] then (some p.1, c2 :: r2)
            else (some (p.1 ++ '+' :: p2.1), p2.2)
          else (some p.1, c2 :: r2)
        | [] => (some p.1, [])
    else (none, c :: rest)

/-- The string branch of the `Spec` constructor: the falsy empty string
yields the empty spec; otherwise the anchored whole-string regex
`^(?:\/(tok))?(?:#(tok))?(?:!(tok))?(?:\.(tok))?$` must match (`none`
embeds the thrown `invalid spec` error).  Because the loop guard
`m[i]!==null` is true even for an `undefined` capture, every slot is
assigned a fresh `Stamp` object (`new Stamp(m[i])`). -/
def specParse (s : List Char) : Option Spec :=
  if s = [] then some emptySpec
  else
    let g1 := grabGroup '/' s
    let g2 := grabGroup '#' g1.2
    let g3 := grabGroup '!' g2.2
    let g4 := grabGroup '.' g3.2
    if g4.2 = [] then
      some ⟨some (stampNew g1.1), some (stampNew g2.1),
            some (stampNew g3.1), some (stampNew g4.1)⟩
    else none

/-- `Spec.prototype.toString` with the default baseline
(`defaults === Spec.NON_SPECIFIC_NOOP`, whose four slots are the shared
`Stamp.ZERO` object): the loop emits `quant + token` when the slot is
not that very object (`!==`), or at the name position when nothing has
been emitted yet; an empty result falls back to `".0"`. -/
def specToString (sp : Spec) : List Char :=
  let ret := [('/', sp.t0), ('#', sp.t1), ('!', sp.t2), ('.', sp.t3)].foldl
    (fun (ret : List Char) p =>
      if p.2.isSome || (p.1 = '.' && ret.isEmpty) then
        ret ++ p.1 :: stampToString (tokOf p.2)
      else ret) []
  if ret.isEmpty then ['.', '0'] else ret

/-- Getter `type`: the string projection of the Type token. -/
def specType (sp : Spec) : List Char := stampToString (tokOf sp.t0)

/-- Getter `id`: the string projection of the Id token. -/
def specId (sp : Spec) : List Char := stampToString (tokOf sp.t1)

/-- Getter `stamp`: the string projection of the Stamp token. -/
def specStamp (sp : Spec) : List Char := stampToString (tokOf sp.t2)

/-- Getter `name`: the string projection of the Name token — a plain
JavaScript string. -/
def specName (sp : Spec) : List Char := stampToString (tokOf sp.t3)

/-- Reading the `origin` property of a JavaScript string primitive:
strings have no such property, so the access yields `undefined`. -/
def strOriginProp (_s : List Char) : Option (List Char) := none

/-- Getter `scope`: the source reads `this.name.origin`, i.e. the
`origin` property of the *string* projection of the Name token. -/
def specScope (sp : Spec) : Option (List Char) := strOriginProp (specName sp)

/-- `Spec.prototype.blank(except)`: keep the slots whose quant occurs in
`except`, reset every other slot to the shared `Stamp.ZERO`; the
rebuilding `new Spec(toks)` keeps `Stamp` objects as they are. -/
def specBlank (sp : Spec) (except : List Char) : Spec :=
  ⟨if '/' ∈ except then sp.t0 else none,
   if '#' ∈ except then sp.t1 else none,
   if '!' ∈ except then sp.t2 else none,
   if '.' ∈ except then sp.t3 else none⟩

/-- `Spec.prototype.isEmpty`: every token is structurally empty. -/
def specIsEmpty (sp : Spec) : Bool :=
  stampIsEmpty (tokOf sp.t0) && stampIsEmpty (tokOf sp.t1) &&
    stampIsEmpty (tokOf sp.t2) && stampIsEmpty (tokOf sp.t3)

/-- An element of an array passed to the `Spec` constructor: the shared
`Stamp.ZERO` object, another `Stamp` object, a string, or `undefined`. -/
inductive TokInput where
  | stampRef (t : Option Stamp)
  | strT (s : List Char)
  | undefT

/-- The element coercion of the array branch:
`tok && tok.constructor===Stamp ? tok : new Stamp(tok)`. -/
def coerceTok : TokInput → Option (Option Stamp)
  | .stampRef t => some t
  | .strT s =>
    if s = [] then some (some stampZero)
    else if stampTextOk s then some (some (stampParse s)) else none
  | .undefT => some (some stampZero)

/-- The runtime shapes the polymorphic `Spec` constructor dispatches on. -/
inductive SpecInput where
  | undef
  | nullV
  | falseV
  | numV (n : Int)
  | strV (s : List Char)
  | specV (sp : Spec)
  | arrV (a b c d : TokInput)
  | otherV

/-- `new Spec(x)`: any falsy input (`undefined`, `null`, `false`, `0`,
`""`) yields the empty spec before any branch dispatch; strings go
through the grammar; another `Spec` shares its slots; a 4-element array
coerces each element; everything else throws `unrecognized parameter`
(embedded as `none`). -/
def specNew : SpecInput → Option Spec
  | .undef => some emptySpec
  | .nullV => some emptySpec
  | .falseV => some emptySpec
  | .numV n => if n = 0 then some emptySpec else none
  | .strV s => specParse s
  | .specV sp => some sp
  | .arrV a b c d =>
    match coerceTok a, coerceTok b, coerceTok c, coerceTok d with
    | some x, some y, some z, some w => some ⟨x, y, z, w⟩
    | _, _, _, _ => none
  | .otherV => none

/-- The spec's words: a bare token, a nonempty string over the token
alphabet. -/
def TokStr (t : List Char) : Prop := t ≠ [] ∧ ∀ c ∈ t, isB64 c = true

/-- The spec's words: an extended token, a bare token or a
`value+origin` pair of bare tokens. -/
def TokExt (t : List Char) : Prop :=
  TokStr t ∨ ∃ v o, t = v ++ '+' :: o ∧ TokStr v ∧ TokStr o

/-- The spec's words: one group of the specifier grammar — the quant
character followed by a token, or nothing. -/
def GroupStr (q : Char) (g : List Char) : Prop :=
  g = [] ∨ ∃ t, g = q :: t ∧ TokExt t

/-- The spec's words, for comparison with `specParse`: a string of the
specifier grammar — "each of `/`, `#`, `!`, `.` optionally followed by a
token, in that fixed order, with no other characters permitted". -/
def SpecGrammar (s : List Char) : Prop :=
  ∃ g1 g2 g3 g4, s = g1 ++ (g2 ++ (g3 ++ g4)) ∧ GroupStr '/' g1 ∧
    GroupStr '#' g2 ∧ GroupStr '!' g3 ∧ GroupStr '.' g4

/-- The claim's words, for comparison with `specToString`: emit
`quant + token-text` unless the position's token *structurally* equals
the same position's token in `defaults`. -/
def emitUnlessEq (q : Char) (t dt : Option Stamp) : List Char :=
  if tokOf t = tokOf dt then [] else q :: stampToString (tokOf t)

/-- The claim's words, for comparison with `specToString`: serialization
as a structural delta against a `defaults` Spec, with the Name position
emitted anyway if the output would otherwise be empty, and the literal
`".0"` returned if the result is still empty. -/
def toStringStructural (sp d : Spec) : List Char :=
  let body := emitUnlessEq '/' sp.t0 d.t0 ++ emitUnlessEq '#' sp.t1 d.t1 ++
    emitUnlessEq '!' sp.t2 d.t2 ++ emitUnlessEq '.' sp.t3 d.t3
  let body2 := if body = [] then '.' :: stampToString (tokOf sp.t3) else body
  if body2 = [] then ['.', '0'] else body2

/-- The amended claim's words: with the default all-zero baseline, a
position is emitted iff its slot is not the shared zero-sentinel object
(every slot the constructor ever assigned is emitted, even a token
structurally equal to zero); the Name position is emitted anyway if the
output would otherwise be empty; the literal `".0"` is returned if the
result is still empty. -/
def toStringRefDelta (sp : Spec) : List Char :=
  let emit := fun (q : Char) (t : Option Stamp) =>
    match t with
    | none => ([] : List Char)
    | some st => q :: stampToString st
  let body := emit '/' sp.t0 ++ emit '#' sp.t1 ++ emit '!' sp.t2 ++ emit '.' sp.t3
  let body2 := if body = [] then '.' :: stampToString (tokOf sp.t3) else body
  if body2 = [] then ['.', '0'] else body2

/-! ### Alphabet facts -/

lemma isB64_plus : isB64 '+' = false := by decide

lemma isB64_slash : isB64 '/' = false := by decide

lemma isB64_hash : isB64 '#' = false := by decide

lemma isB64_bang : isB64 '!' = false := by decide

lemma isB64_dot : isB64 '.' = false := by decide

lemma ne_plus_of_isB64 {c : Char} (h : isB64 c = true) : c ≠ '+' := by
  intro hc; subst hc; rw [isB64_plus] at h; exact Bool.false_ne_true h

/-! ### takeWhile / dropWhile helpers -/

lemma takeWhile_all {p : Char → Bool} :
    ∀ {l : List Char}, (∀ c ∈ l, p c = true) → l.takeWhile p = l := by
  intro l
  induction l with
  | nil => intro _; rfl
  | cons c t ih =>
    intro h
    simp [List.takeWhile_cons, h c (by simp), ih (fun x hx => h x (by simp [hx]))]

lemma dropWhile_all {p : Char → Bool} :
    ∀ {l : List Char}, (∀ c ∈ l, p c = true) → l.dropWhile p = [] := by
  intro l
  induction l with
  | nil => intro _; rfl
  | cons c t ih =>
    intro h
    simp only [List.dropWhile_cons, h c (by simp)]
    exact ih (fun x hx => h x (by simp [hx]))

lemma takeWhile_append_all {p : Char → Bool} {a : List Char} (b : List Char)
    (h : ∀ c ∈ a, p c = true) :
    (a ++ b).takeWhile p = a ++ b.takeWhile p := by
  induction a with
  | nil => rfl
  | cons c t ih =>
    simp [List.cons_append, List.takeWhile_cons, h c (by simp),
      ih (fun x hx => h x (by simp [hx]))]

lemma dropWhile_append_all {p : Char → Bool} {a : List Char} (b : List Char)
    (h : ∀ c ∈ a, p c = true) :
    (a ++ b).dropWhile p = b.dropWhile p := by
  induction a with
  | nil => rfl
  | cons c t ih =>
    simp only [List.cons_append, List.dropWhile_cons, h c (by simp)]
    exact ih (fun x hx => h x (by simp [hx]))

/-! ### Base-64 integer codec round trip -/

/-- Little-endian value of a base-64 digit list. -/
def valLE : List Nat → Nat
  | [] => 0
  | d :: t => d + 64 * valLE t

lemma valLE_replicate_zero : ∀ k, valLE (List.replicate k 0) = 0 := by
  intro k
  induction k with
  | zero => rfl
  | succ k ih => simp [List.replicate, valLE, ih]

lemma valLE_append_zeros (l : List Nat) (k : Nat) :
    valLE (l ++ List.replicate k 0) = valLE l := by
  induction l with
  | nil => simp [valLE, valLE_replicate_zero]
  | cons d t ih => simp [valLE, ih]

lemma valLE_natB64Rev : ∀ n, valLE (natB64Rev n) = n := by
  intro n
  induction n using Nat.strong_induction_on with
  | _ n ih =>
    match n with
    | 0 => simp [natB64Rev, valLE]
    | n + 1 =>
      rw [natB64Rev, valLE,
        ih ((n + 1) / 64) (Nat.div_lt_self (Nat.succ_pos n) (by norm_num))]
      omega

lemma natB64Rev_lt : ∀ n, ∀ d ∈ natB64Rev n, d < 64 := by
  intro n
  induction n using Nat.strong_induction_on with
  | _ n ih =>
    match n with
    | 0 => intro d hd; simp [natB64Rev] at hd
    | n + 1 =>
      intro d hd
      rw [natB64Rev] at hd
      rcases List.mem_cons.mp hd with h | h
      · subst h; exact Nat.mod_lt _ (by norm_num)
      · exact ih ((n + 1) / 64) (Nat.div_lt_self (Nat.succ_pos n) (by norm_num)) d h

lemma b64val_b64digit : ∀ d : Fin 64, b64val (b64digit d.val) = d.val := by decide

lemma b64digit_isB64 : ∀ d : Fin 64, isB64 (b64digit d.val) = true := by decide

lemma b64digit_ne_plus : ∀ d : Fin 64, b64digit d.val ≠ '+' := by decide

lemma foldl_map_b64 : ∀ (L : List Nat) (a : Nat), (∀ d ∈ L, d < 64) →
    List.foldl (fun x c => x * 64 + b64val c) a (L.map b64digit) =
      List.foldl (fun x d => x * 64 + d) a L := by
  intro L
  induction L with
  | nil => intro a _; rfl
  | cons d t ih =>
    intro a h
    simp only [List.map_cons, List.foldl_cons]
    rw [b64val_b64digit ⟨d, h d (by simp)⟩]
    exact ih _ (fun x hx => h x (by simp [hx]))

lemma foldl_reverse_valLE : ∀ (l : List Nat) (a : Nat),
    List.foldl (fun x d => x * 64 + d) a l.reverse =
      a * 64 ^ l.length + valLE l := by
  intro l
  induction l with
  | nil => intro a; simp [valLE]
  | cons d t ih =>
    intro a
    simp only [List.reverse_cons, List.foldl_append, List.foldl_cons,
      List.foldl_nil, ih a, valLE, List.length_cons]
    ring

lemma base2int_int2base (n w : Nat) : base2int (int2base n w) = n := by
  unfold base2int int2base
  have hmem : ∀ d ∈ (natB64Rev n ++
      List.replicate (w - (natB64Rev n).length) 0).reverse, d < 64 := by
    intro d hd
    rw [List.mem_reverse] at hd
    rcases List.mem_append.mp hd with h | h
    · exact natB64Rev_lt n d h
    · rw [List.eq_of_mem_replicate h]; norm_num
  rw [foldl_map_b64 _ 0 hmem, foldl_reverse_valLE]
  simp [valLE_append_zeros, valLE_natB64Rev]

lemma int2base_mem {n w : Nat} {c : Char} (hc : c ∈ int2base n w) :
    isB64 c = true ∧ c ≠ '+' := by
  unfold int2base at hc
  rcases List.mem_map.mp hc with ⟨d, hd, rfl⟩
  rw [List.mem_reverse] at hd
  have hlt : d < 64 := by
    rcases List.mem_append.mp hd with h | h
    · exact natB64Rev_lt n d h
    · rw [List.eq_of_mem_replicate h]; norm_num
  exact ⟨b64digit_isB64 ⟨d, hlt⟩, b64digit_ne_plus ⟨d, hlt⟩⟩

lemma int2base_ne_nil (n : Nat) : int2base n 5 ≠ [] := by
  unfold int2base
  intro h
  have := congrArg List.length h
  simp only [List.length_map, List.length_reverse, List.length_append,
    List.length_replicate, List.length_nil] at this
  omega

lemma tokB_true {l : List Char} (h1 : l ≠ []) (h2 : ∀ c ∈ l, isB64 c = true) :
    tokB l = true := by
  cases l with
  | nil => exact absurd rfl h1
  | cons c t =>
    simp only [tokB, List.isEmpty_cons, Bool.not_false, Bool.true_and,
      List.all_eq_true]
    exact fun x hx => h2 x hx

lemma tokB_int2base (n : Nat) : tokB (int2base n 5) = true :=
  tokB_true (int2base_ne_nil n) (fun c hc => (int2base_mem hc).1)

lemma parseTimestamp_issue {p : List Char} (hp : tokB p = true) (k : Nat) :
    parseTimestamp (int2base k 5 ++ '+' :: p) = some (k, p) := by
  unfold parseTimestamp
  have hne : ∀ c ∈ int2base k 5, (fun c => decide (c ≠ '+')) c = true := by
    intro c hc
    simp [(int2base_mem hc).2]
  rw [takeWhile_append_all _ hne, dropWhile_append_all _ hne]
  simp only [List.takeWhile_cons, List.dropWhile_cons]
  norm_num
  exact ⟨⟨tokB_int2base k, hp⟩, base2int_int2base k 5⟩

/-! ### Clock lemmas -/

lemma issueN_spec : ∀ (n : Nat) (c : LamportClock),
    (issueN n c).1 =
      (List.range n).map (fun i => int2base (c.seq + i) 5 ++ '+' :: c.id) ∧
    (issueN n c).2 = ⟨c.id, c.seq + n⟩ := by
  intro n
  induction n with
  | zero => intro c; simp [issueN]
  | succ n ih =>
    intro c
    have h := ih ⟨c.id, c.seq + 1⟩
    simp only [issueN, issueTimestamp] at h ⊢
    constructor
    · rw [h.1, List.range_succ_eq_map]
      simp only [List.map_cons, List.map_map, Nat.add_zero]
      have hf : (fun i => int2base (c.seq + 1 + i) 5 ++ '+' :: c.id) =
          ((fun i => int2base (c.seq + i) 5 ++ '+' :: c.id) ∘ Nat.succ) := by
        funext i
        have harg : c.seq + 1 + i = c.seq + Nat.succ i := by omega
        simp [harg]
      rw [hf]
    · rw [h.2]
      have : c.seq + 1 + n = c.seq + (n + 1) := by omega
      rw [this]

/-- C1: a clock with counter `s` observing a timestamp that the
timestamp grammar accepts with decoded sequence `k` returns `true` and
ends with counter `k + 1` when `k >= s` and with counter `s` when
`k < s`; the process id is untouched.  (The timestamp grammar and base64
codec are modelled from the spec; they are external to the sources.) -/
theorem c1_observe_merge (c : LamportClock) (ts : List Char) (k : Nat)
    (p : List Char) (h : parseTimestamp ts = some (k, p)) :
    (checkTimestamp c ts).1 = some true ∧
    (checkTimestamp c ts).2.seq = (if c.seq ≤ k then k + 1 else c.seq) ∧
    (checkTimestamp c ts).2.id = c.id := by
  have hred : checkTimestamp c ts =
      (some true, if c.seq ≤ k then ⟨c.id, k + 1⟩ else c) := by
    unfold checkTimestamp
    rw [h]
  rw [hred]
  exact ⟨rfl, by split <;> rfl, by split <;> rfl⟩

/-- Witness for C1 at concrete inputs: observing `"00002+g"` (decoded
sequence 2) leaves a clock at 5 unchanged and advances a clock at 0
to 3. -/
theorem c1_observe_merge_witness :
    (checkTimestamp ⟨['g'], 5⟩ ("00002+g".toList)).2.seq = 5 ∧
    (checkTimestamp ⟨['g'], 0⟩ ("00002+g".toList)).2.seq = 3 := by
  constructor
  · rw [(c1_observe_merge ⟨['g'], 5⟩ _ 2 ['g'] (by decide)).2.1]; decide
  · rw [(c1_observe_merge ⟨['g'], 0⟩ _ 2 ['g'] (by decide)).2.1]; decide

/-- C3 counterexample: `checkTimestamp` does *not* succeed on every
input string — on the empty string the internal `parseTimestamp` throws
`malformed timestamp` (embedded as `none`) and the error propagates. -/
theorem c3_counterexample : (checkTimestamp ⟨['g'], 0⟩ []).1 = none := rfl

/-- C3 amended: for every input that the timestamp grammar accepts,
`checkTimestamp` succeeds and returns `true` — it never rejects such an
input on ordering grounds. -/
theorem c3_observe_total (c : LamportClock) (ts : List Char) (k : Nat)
    (p : List Char) (h : parseTimestamp ts = some (k, p)) :
    (checkTimestamp c ts).1 = some true := by
  unfold checkTimestamp
  rw [h]

/-- Witness for amended C3 at the concrete timestamp `"00000+g"`. -/
theorem c3_observe_total_witness :
    (checkTimestamp ⟨['g'], 0⟩ ("00000+g".toList)).1 = some true :=
  c3_observe_total _ _ 0 ['g'] (by decide)

/-- C4: `issueTimestamp` returns the width-5 base64 encoding of the
counter before the call, then `'+'`, then the process id, and increments
the counter by exactly one; hence `n` consecutive calls on a fresh clock
with an accepted process id `p` decode to the sequence numbers
`0, 1, ..., n-1` in order (and the final counter is `n`). -/
theorem c4_issue_monotone (c : LamportClock) (p : List Char) (n : Nat)
    (hp : tokB p = true) :
    issueTimestamp c = (int2base c.seq 5 ++ '+' :: c.id, ⟨c.id, c.seq + 1⟩) ∧
    (issueN n ⟨p, 0⟩).1.map parseTimestamp =
      (List.range n).map (fun k => some (k, p)) ∧
    (issueN n ⟨p, 0⟩).2 = ⟨p, n⟩ := by
  refine ⟨rfl, ?_, ?_⟩
  · rw [(issueN_spec n ⟨p, 0⟩).1, List.map_map]
    have hf : (parseTimestamp ∘
        fun i => int2base ((⟨p, 0⟩ : LamportClock).seq + i) 5 ++ '+' ::
          (⟨p, 0⟩ : LamportClock).id) = fun k => some (k, p) := by
      funext i
      simp [parseTimestamp_issue hp]
    rw [hf]
  · rw [(issueN_spec n ⟨p, 0⟩).2]
    simp

/-- Witness for C4 at `p = "g"`, `n = 3`, and a clock at 7. -/
theorem c4_issue_monotone_witness :
    issueTimestamp ⟨['g'], 7⟩ = (int2base 7 5 ++ '+' :: ['g'], ⟨['g'], 8⟩) ∧
    (issueN 3 ⟨['g'], 0⟩).1.map parseTimestamp =
      (List.range 3).map (fun k => some (k, ['g'])) ∧
    (issueN 3 ⟨['g'], 0⟩).2 = ⟨['g'], 3⟩ :=
  c4_issue_monotone ⟨['g'], 7⟩ ['g'] 3 (by decide)

/-- C9: every clock operation preserves the invariant — the process id
is never changed and the counter never decreases (`issueTimestamp`,
`checkTimestamp` on any input including rejected ones, the no-op
`adjustTime`, and `time2date` which returns `undefined`). -/
theorem c9_clock_invariant (c : LamportClock) (ts : List Char) :
    (issueTimestamp c).2.id = c.id ∧ c.seq ≤ (issueTimestamp c).2.seq ∧
    (checkTimestamp c ts).2.id = c.id ∧ c.seq ≤ (checkTimestamp c ts).2.seq ∧
    adjustTime c = c ∧ time2date c = none := by
  have hck : (checkTimestamp c ts).2.id = c.id ∧
      c.seq ≤ (checkTimestamp c ts).2.seq := by
    unfold checkTimestamp
    cases hp : parseTimestamp ts with
    | none => exact ⟨rfl, Nat.le_refl _⟩
    | some kq =>
      obtain ⟨k, q⟩ := kq
      by_cases hk : c.seq ≤ k <;> simp [hk] <;> omega
  exact ⟨rfl, Nat.le_succ _, hck.1, hck.2, rfl, rfl⟩

/-! ### Token and scanning lemmas -/

lemma tokB_elim {l : List Char} (h : tokB l = true) :
    l ≠ [] ∧ ∀ c ∈ l, isB64 c = true := by
  cases l with
  | nil => simp [tokB] at h
  | cons c t =>
    simp only [tokB, List.isEmpty_cons, Bool.not_false, Bool.true_and,
      List.all_eq_true] at h
    exact ⟨by simp, h⟩

lemma ne_plus_pred {l : List Char} (h : ∀ c ∈ l, isB64 c = true) :
    ∀ c ∈ l, (fun c => decide (c ≠ '+')) c = true := by
  intro c hc
  simp [ne_plus_of_isB64 (h c hc)]

lemma scanRun_eq : ∀ (s v r : List Char), scanRun s = (v, r) →
    s = v ++ r ∧ (∀ c ∈ v, isB64 c = true) ∧
      (r = [] ∨ ∃ c cs, r = c :: cs ∧ isB64 c = false) := by
  intro s
  induction s with
  | nil =>
    intro v r h
    rw [scanRun] at h
    injection h with h1 h2
    subst h1; subst h2
    simp
  | cons c t ih =>
    intro v r h
    rw [scanRun] at h
    cases h64 : isB64 c with
    | false =>
      simp only [h64, Bool.false_eq_true, if_false] at h
      injection h with h1 h2
      subst h1; subst h2
      simp [h64]
    | true =>
      simp only [h64, if_true] at h
      rcases hs : scanRun t with ⟨v1, r1⟩
      rw [hs] at h
      injection h with h1 h2
      subst h1; subst h2
      obtain ⟨he, hb, hr⟩ := ih v1 r1 hs
      refine ⟨by simp [he], ?_, hr⟩
      intro x hx
      rcases List.mem_cons.mp hx with rfl | hx
      · exact h64
      · exact hb x hx

lemma scanRun_append : ∀ (a b : List Char), (∀ c ∈ a, isB64 c = true) →
    (b = [] ∨ ∃ c cs, b = c :: cs ∧ isB64 c = false) →
    scanRun (a ++ b) = (a, b) := by
  intro a
  induction a with
  | nil =>
    intro b _ hb
    rcases hb with rfl | ⟨c, cs, rfl, hc⟩
    · rfl
    · simp [scanRun, hc]
  | cons x t ih =>
    intro b ha hb
    have hx : isB64 x = true := ha x (by simp)
    simp [scanRun, hx, ih b (fun c hc => ha c (by simp [hc])) hb]

/-! ### Stamp lemmas -/

lemma stampWF_stampParse {t : List Char} (h : TokExt t) :
    stampWF (stampParse t) = true := by
  rcases h with ⟨tne, tb⟩ | ⟨v, o, rfl, ⟨vne, vb⟩, ⟨one, ob⟩⟩
  · unfold stampParse
    rw [takeWhile_all (ne_plus_pred tb), dropWhile_all (ne_plus_pred tb)]
    simp only [stampWF, Bool.and_eq_true]
    exact ⟨tokB_true tne tb, by decide⟩
  · unfold stampParse
    rw [takeWhile_append_all _ (ne_plus_pred vb),
      dropWhile_append_all _ (ne_plus_pred vb)]
    simp only [List.takeWhile_cons, List.dropWhile_cons, decide_not,
      decide_eq_true_eq]
    norm_num
    simp only [stampWF, Bool.and_eq_true]
    exact ⟨tokB_true vne vb, tokB_true one ob⟩

lemma stampParse_toString {st : Stamp} (h : stampWF st = true) :
    stampParse (stampToString st) = st := by
  obtain ⟨v, o⟩ := st
  simp only [stampWF, Bool.and_eq_true] at h
  obtain ⟨vne, vb⟩ := tokB_elim h.1
  obtain ⟨one, ob⟩ := tokB_elim h.2
  unfold stampToString stampParse
  by_cases ho : o = ['0']
  · rw [if_pos ho, List.append_nil]
    rw [takeWhile_all (ne_plus_pred vb), dropWhile_all (ne_plus_pred vb)]
    simp [ho]
  · rw [if_neg ho]
    rw [takeWhile_append_all _ (ne_plus_pred vb),
      dropWhile_append_all _ (ne_plus_pred vb)]
    simp

lemma TokExt_stampToString {st : Stamp} (h : stampWF st = true) :
    TokExt (stampToString st) := by
  obtain ⟨v, o⟩ := st
  simp only [stampWF, Bool.and_eq_true] at h
  obtain ⟨vne, vb⟩ := tokB_elim h.1
  obtain ⟨one, ob⟩ := tokB_elim h.2
  unfold stampToString
  by_cases ho : o = ['0']
  · rw [if_pos ho, List.append_nil]
    exact Or.inl ⟨vne, vb⟩
  · rw [if_neg ho]
    exact Or.inr ⟨v, o, rfl, ⟨vne, vb⟩, ⟨one, ob⟩⟩

lemma stampWF_zero : stampWF stampZero = true := by decide

/-! ### grabGroup lemmas -/

/-- The regex capture of a group: `none` for an empty group,
the token text otherwise. -/
def capOf : List Char → Option (List Char)
  | [] => none
  | _ :: t => some t

lemma grabGroup_none {q : Char} {s : List Char}
    (hs : s = [] ∨ ∃ c cs, s = c :: cs ∧ c ≠ q) : grabGroup q s = (none, s) := by
  rcases hs with rfl | ⟨c, cs, rfl, hc⟩
  · rfl
  · simp [grabGroup, hc]

lemma grabGroup_consume {q : Char} {t : List Char} (ht : TokExt t)
    {rest : List Char}
    (hr : rest = [] ∨ ∃ c cs, rest = c :: cs ∧ isB64 c = false ∧ c ≠ '+') :
    grabGroup q (q :: (t ++ rest)) = (some t, rest) := by
  have hrw : rest = [] ∨ ∃ c cs, rest = c :: cs ∧ isB64 c = false := by
    rcases hr with rfl | ⟨c, cs, rfl, hc, _⟩
    · exact Or.inl rfl
    · exact Or.inr ⟨c, cs, rfl, hc⟩
  rcases ht with ⟨tne, tb⟩ | ⟨v, o, rfl, ⟨vne, vb⟩, ⟨one, ob⟩⟩
  · rw [grabGroup]
    rw [if_pos rfl, scanRun_append t rest tb hrw]
    rw [if_neg tne]
    rcases hr with rfl | ⟨c, cs, rfl, _, hcp⟩
    · rfl
    · simp only []
      rw [if_neg hcp]
  · rw [grabGroup]
    have hassoc : (v ++ '+' :: o) ++ rest = v ++ ('+' :: (o ++ rest)) := by
      simp [List.append_assoc]
    rw [if_pos rfl, hassoc, scanRun_append v ('+' :: (o ++ rest)) vb
      (Or.inr ⟨'+', o ++ rest, rfl, isB64_plus⟩)]
    rw [if_neg vne]
    simp only []
    rw [if_pos trivial, scanRun_append o rest ob hrw, if_neg one]

lemma grabGroup_decomp (q : Char) (s : List Char) :
    ∃ g, s = g ++ (grabGroup q s).2 ∧ GroupStr q g ∧
      (grabGroup q s).1 = capOf g := by
  cases s with
  | nil => exact ⟨[], rfl, Or.inl rfl, rfl⟩
  | cons c rest =>
    by_cases hc : c = q
    · subst hc
      rcases hs1 : scanRun rest with ⟨v, r1⟩
      obtain ⟨hre, hvb, hr1⟩ := scanRun_eq rest v r1 hs1
      by_cases hv : v = []
      · have hgg : grabGroup c (c :: rest) = (none, c :: rest) := by
          rw [grabGroup, if_pos rfl, hs1]
          dsimp only
          rw [if_pos hv]
        exact ⟨[], by rw [hgg]; rfl, Or.inl rfl, by rw [hgg]; rfl⟩
      · cases r1 with
        | nil =>
          have hgg : grabGroup c (c :: rest) = (some v, []) := by
            rw [grabGroup, if_pos rfl, hs1]
            dsimp only
            rw [if_neg hv]
          refine ⟨c :: v, ?_, Or.inr ⟨v, rfl, Or.inl ⟨hv, hvb⟩⟩,
            by rw [hgg]; rfl⟩
          rw [hgg]
          simp [hre]
        | cons c2 r2 =>
          by_cases hc2 : c2 = '+'
          · subst hc2
            rcases hs2 : scanRun r2 with ⟨o, r3⟩
            obtain ⟨hre2, hob, hr3⟩ := scanRun_eq r2 o r3 hs2
            by_cases ho : o = []
            · have hgg : grabGroup c (c :: rest) = (some v, '+' :: r2) := by
                rw [grabGroup, if_pos rfl, hs1]
                dsimp only
                rw [if_neg hv, if_pos rfl, hs2]
                dsimp only
                rw [if_pos ho]
              refine ⟨c :: v, ?_, Or.inr ⟨v, rfl, Or.inl ⟨hv, hvb⟩⟩,
                by rw [hgg]; rfl⟩
              rw [hgg]
              simp [hre]
            · have hgg : grabGroup c (c :: rest) =
                  (some (v ++ '+' :: o), r3) := by
                rw [grabGroup, if_pos rfl, hs1]
                dsimp only
                rw [if_neg hv, if_pos rfl, hs2]
                dsimp only
                rw [if_neg ho]
              refine ⟨c :: (v ++ '+' :: o), ?_,
                Or.inr ⟨v ++ '+' :: o, rfl,
                  Or.inr ⟨v, o, rfl, ⟨hv, hvb⟩, ⟨ho, hob⟩⟩⟩,
                by rw [hgg]; rfl⟩
              rw [hgg]
              simp [hre, hre2]
          · have hgg : grabGroup c (c :: rest) = (some v, c2 :: r2) := by
              rw [grabGroup, if_pos rfl, hs1]
              dsimp only
              rw [if_neg hv, if_neg hc2]
            refine ⟨c :: v, ?_, Or.inr ⟨v, rfl, Or.inl ⟨hv, hvb⟩⟩,
              by rw [hgg]; rfl⟩
            rw [hgg]
            simp [hre]
    · have hgg : grabGroup q (c :: rest) = (none, c :: rest) :=
        grabGroup_none (Or.inr ⟨c, rest, rfl, hc⟩)
      exact ⟨[], by rw [hgg]; rfl, Or.inl rfl, by rw [hgg]; rfl⟩

/-- Heads possibly starting the input remainder. -/
def HeadIn (qs : List Char) (r : List Char) : Prop :=
  r = [] ∨ ∃ c cs, r = c :: cs ∧ c ∈ qs

lemma HeadIn_of_GroupStr {q : Char} {qs g : List Char} (hg : GroupStr q g)
    (hq : q ∈ qs) : HeadIn qs g := by
  rcases hg with rfl | ⟨t, rfl, _⟩
  · exact Or.inl rfl
  · exact Or.inr ⟨q, t, rfl, hq⟩

lemma HeadIn_append {q : Char} {qs g r : List Char} (hg : GroupStr q g)
    (hq : q ∈ qs) (hr : HeadIn qs r) : HeadIn qs (g ++ r) := by
  rcases hg with rfl | ⟨t, rfl, _⟩
  · simpa using hr
  · exact Or.inr ⟨q, t ++ r, by simp, hq⟩

lemma headCond {qs : List Char} {q : Char} {r : List Char} (h : HeadIn qs r)
    (hqs : ∀ c ∈ qs, isB64 c = false ∧ c ≠ '+' ∧ c ≠ q) :
    r = [] ∨ ∃ c cs, r = c :: cs ∧ isB64 c = false ∧ c ≠ '+' ∧ c ≠ q := by
  rcases h with rfl | ⟨c, cs, rfl, hm⟩
  · exact Or.inl rfl
  · obtain ⟨ha, hb, hc⟩ := hqs c hm
    exact Or.inr ⟨c, cs, rfl, ha, hb, hc⟩

lemma grabGroup_step {q : Char} {g r : List Char} (hg : GroupStr q g)
    (hr : r = [] ∨ ∃ c cs, r = c :: cs ∧ isB64 c = false ∧ c ≠ '+' ∧ c ≠ q) :
    grabGroup q (g ++ r) = (capOf g, r) := by
  rcases hg with rfl | ⟨t, rfl, ht⟩
  · rw [List.nil_append]
    refine grabGroup_none ?_
    rcases hr with rfl | ⟨c, cs, rfl, _, _, hcq⟩
    · exact Or.inl rfl
    · exact Or.inr ⟨c, cs, rfl, hcq⟩
  · rw [List.cons_append]
    refine grabGroup_consume ht ?_
    rcases hr with rfl | ⟨c, cs, rfl, hb, hp, _⟩
    · exact Or.inl rfl
    · exact Or.inr ⟨c, cs, rfl, hb, hp⟩

lemma specParse_groups {g1 g2 g3 g4 : List Char} (h1 : GroupStr '/' g1)
    (h2 : GroupStr '#' g2) (h3 : GroupStr '!' g3) (h4 : GroupStr '.' g4)
    (hne : g1 ++ (g2 ++ (g3 ++ g4)) ≠ []) :
    specParse (g1 ++ (g2 ++ (g3 ++ g4))) =
      some ⟨some (stampNew (capOf g1)), some (stampNew (capOf g2)),
            some (stampNew (capOf g3)), some (stampNew (capOf g4))⟩ := by
  have hA : HeadIn ['#', '!', '.'] (g2 ++ (g3 ++ g4)) :=
    HeadIn_append h2 (by simp)
      (HeadIn_append h3 (by simp) (HeadIn_of_GroupStr h4 (by simp)))
  have hB : HeadIn ['!', '.'] (g3 ++ g4) :=
    HeadIn_append h3 (by simp) (HeadIn_of_GroupStr h4 (by simp))
  have hC : HeadIn ['.'] g4 := HeadIn_of_GroupStr h4 (by simp)
  have e1 := grabGroup_step h1 (headCond hA (by decide))
  have e2 := grabGroup_step h2 (headCond hB (by decide))
  have e3 := grabGroup_step h3 (headCond hC (by decide))
  have e4 : grabGroup '.' g4 = (capOf g4, []) := by
    have := grabGroup_step h4 (Or.inl rfl)
    rwa [List.append_nil] at this
  unfold specParse
  rw [if_neg hne]
  rw [e1]
  dsimp only
  rw [e2]
  dsimp only
  rw [e3]
  dsimp only
  rw [e4]
  rfl

lemma specParse_shape {s : List Char} {sp : Spec} (h : specParse s = some sp) :
    (s = [] ∧ sp = emptySpec) ∨
    (SpecGrammar s ∧ ∃ a b c d, sp = ⟨some a, some b, some c, some d⟩ ∧
      stampWF a = true ∧ stampWF b = true ∧ stampWF c = true ∧
      stampWF d = true) := by
  by_cases hs : s = []
  · subst hs
    left
    refine ⟨rfl, ?_⟩
    unfold specParse at h
    rw [if_pos rfl] at h
    exact (Option.some.injEq _ _ ▸ h).symm
  · right
    unfold specParse at h
    rw [if_neg hs] at h
    obtain ⟨gg1, hd1, hG1, hc1⟩ := grabGroup_decomp '/' s
    obtain ⟨gg2, hd2, hG2, hc2⟩ := grabGroup_decomp '#' (grabGroup '/' s).2
    obtain ⟨gg3, hd3, hG3, hc3⟩ :=
      grabGroup_decomp '!' (grabGroup '#' (grabGroup '/' s).2).2
    obtain ⟨gg4, hd4, hG4, hc4⟩ :=
      grabGroup_decomp '.' (grabGroup '!' (grabGroup '#' (grabGroup '/' s).2).2).2
    by_cases hr4 :
        (grabGroup '.' (grabGroup '!' (grabGroup '#' (grabGroup '/' s).2).2).2).2 = []
    · rw [if_pos hr4] at h
      have hwf : ∀ (q : Char) (g : List Char) (m : Option (List Char)),
          GroupStr q g → m = capOf g → stampWF (stampNew m) = true := by
        intro q g m hg hm
        rcases hg with rfl | ⟨t, rfl, ht⟩
        · subst hm; exact stampWF_zero
        · subst hm; exact stampWF_stampParse ht
      constructor
      · refine ⟨gg1, gg2, gg3, gg4, ?_, hG1, hG2, hG3, hG4⟩
        rw [hd1, hd2, hd3, hd4, hr4, List.append_nil]
      · refine ⟨stampNew (grabGroup '/' s).1,
          stampNew (grabGroup '#' (grabGroup '/' s).2).1,
          stampNew (grabGroup '!' (grabGroup '#' (grabGroup '/' s).2).2).1,
          stampNew
            (grabGroup '.' (grabGroup '!' (grabGroup '#' (grabGroup '/' s).2).2).2).1,
          ?_, hwf _ _ _ hG1 hc1, hwf _ _ _ hG2 hc2, hwf _ _ _ hG3 hc3,
          hwf _ _ _ hG4 hc4⟩
        exact (Option.some.injEq _ _ ▸ h).symm
    · rw [if_neg hr4] at h
      exact absurd h (by simp)

/-! ### Serialization lemmas -/

lemma specEquiv_refl (sp : Spec) : specEquiv sp sp = true := by
  simp [specEquiv]

lemma specToString_some (a b c d : Stamp) :
    specToString ⟨some a, some b, some c, some d⟩ =
      ('/' :: stampToString a) ++ (('#' :: stampToString b) ++
        (('!' :: stampToString c) ++ ('.' :: stampToString d))) := by
  simp [specToString, tokOf, List.append_assoc]

/-- C2: for every string accepted by the specifier grammar, parsing,
serializing with the default baseline, and reparsing yields a Specifier
whose four tokens are structurally equal to those of the original
parse. -/
theorem c2_roundtrip (s : List Char) (sp : Spec) (h : specParse s = some sp) :
    ∃ sp2, specParse (specToString sp) = some sp2 ∧
      specEquiv sp2 sp = true := by
  rcases specParse_shape h with ⟨rfl, rfl⟩ | ⟨-, a, b, c, d, rfl, ha, hb, hc, hd⟩
  · exact ⟨⟨some stampZero, some stampZero, some stampZero, some stampZero⟩,
      by decide, by decide⟩
  · refine ⟨⟨some a, some b, some c, some d⟩, ?_, specEquiv_refl _⟩
    rw [specToString_some]
    have hp := @specParse_groups ('/' :: stampToString a)
      ('#' :: stampToString b) ('!' :: stampToString c)
      ('.' :: stampToString d)
      (Or.inr ⟨_, rfl, TokExt_stampToString ha⟩)
      (Or.inr ⟨_, rfl, TokExt_stampToString hb⟩)
      (Or.inr ⟨_, rfl, TokExt_stampToString hc⟩)
      (Or.inr ⟨_, rfl, TokExt_stampToString hd⟩)
      (by simp)
    rw [hp]
    simp only [capOf, stampNew]
    rw [stampParse_toString ha, stampParse_toString hb,
      stampParse_toString hc, stampParse_toString hd]

/-- Witness for C2 at the concrete accepted string `"/a+b"`. -/
theorem c2_roundtrip_witness :
    ∃ sp2, specParse (specToString ⟨some ⟨['a'], ['b']⟩, some stampZero,
        some stampZero, some stampZero⟩) = some sp2 ∧
      specEquiv sp2 ⟨some ⟨['a'], ['b']⟩, some stampZero, some stampZero,
        some stampZero⟩ = true :=
  c2_roundtrip ("/a+b".toList) _ (by decide)

/-- C5 counterexample: serialization is *not* a structural delta against
the baseline.  The Specifier parsed from `"#0"` has all four tokens
structurally equal to the zero tokens of the default baseline, so the
claim's serializer emits `".0"`, but the source compares slots with
JavaScript `!==` (object identity) and every slot of a string-parsed
Spec holds a fresh `Stamp` object, so the code emits `"/0#0!0.0"`. -/
theorem c5_counterexample :
    (specParse ("#0".toList)).map specToString = some ("/0#0!0.0".toList) ∧
    (specParse ("#0".toList)).map
        (fun sp => toStringStructural sp emptySpec) = some (".0".toList) ∧
    ("/0#0!0.0".toList ≠ ".0".toList) := by decide

/-- C5 amended: with the default all-zero baseline, `toString` emits
`quant + token-text` for exactly the slots that are not the shared
zero-sentinel object (JavaScript `!==`, not structural equality); the
Name position is emitted anyway if the output would otherwise be empty;
if the result is still empty the literal `".0"` is returned — in
particular the empty Specifier serializes to `".0"`. -/
theorem c5_serialize_ref_delta :
    (∀ sp : Spec, specToString sp = toStringRefDelta sp) ∧
    specToString emptySpec = ['.', '0'] := by
  refine ⟨?_, by decide⟩
  intro sp
  obtain ⟨t0, t1, t2, t3⟩ := sp
  cases t0 <;> cases t1 <;> cases t2 <;> cases t3 <;>
    simp [specToString, toStringRefDelta, tokOf, List.append_assoc]

/-- C6 counterexample: the example string of the claim,
`"/TodoItem#7AM0f+gritzko.done!7AMTc+gritzko"`, has its Name group
before its Stamp group, which violates the fixed `/`,`#`,`!`,`.` order
the same claim states; the constructor rejects it (`invalid spec`,
embedded as `none`) instead of parsing it. -/
theorem c6_counterexample :
    specParse ("/TodoItem#7AM0f+gritzko.done!7AMTc+gritzko".toList) =
      none := by decide

/-- C6 amended: string construction accepts exactly the anchored
specifier grammar (each of `/`,`#`,`!`,`.` optionally followed by a
token, in that fixed order, nothing else); `"X#Y"` fails; the example
with its groups in grammar order parses to the claimed four component
values; and positions not present in the match are structurally the zero
sentinel. -/
theorem c6_parse_grammar :
    (∀ s : List Char, (specParse s).isSome = true ↔ SpecGrammar s) ∧
    specParse ("X#Y".toList) = none ∧
    (specParse ("/TodoItem#7AM0f+gritzko!7AMTc+gritzko.done".toList)).map
        (fun sp => (specType sp, specId sp, specStamp sp, specName sp)) =
      some ("TodoItem".toList, "7AM0f+gritzko".toList,
        "7AMTc+gritzko".toList, "done".toList) ∧
    (specParse ("/X".toList)).map
        (fun sp => (tokOf sp.t1, tokOf sp.t2, tokOf sp.t3)) =
      some (stampZero, stampZero, stampZero) := by
  refine ⟨?_, by decide, by decide, by decide⟩
  intro s
  constructor
  · intro h
    rcases hp : specParse s with _ | sp
    · rw [hp] at h; simp at h
    · rcases specParse_shape hp with ⟨rfl, -⟩ | ⟨hg, -⟩
      · exact ⟨[], [], [], [], rfl, Or.inl rfl, Or.inl rfl, Or.inl rfl,
          Or.inl rfl⟩
      · exact hg
  · intro hg
    obtain ⟨g1, g2, g3, g4, rfl, h1, h2, h3, h4⟩ := hg
    by_cases hne : g1 ++ (g2 ++ (g3 ++ g4)) = []
    · rw [hne]; rfl
    · rw [specParse_groups h1 h2 h3 h4 hne]; rfl

/-- C7 (code bug): the `scope` getter reads `this.name.origin`, but
`name` is the *string* projection of the Name token and a JavaScript
string has no `origin` property, so `scope` is `undefined` for every
Specifier; the Name token of the Spec parsed from `".done+gritzko"`
does carry the origin `"gritzko"` that the spec says `scope` returns
(the parallel `origin` getter correctly reads `this.Stamp.origin`). -/
theorem c7_scope_code_bug :
    (specParse (".done+gritzko".toList)).map specScope = some none ∧
    (specParse (".done+gritzko".toList)).map
        (fun sp => (tokOf sp.t3).origin) = some ("gritzko".toList) := by
  decide

/-- C8: `blank(except)` keeps exactly the positions whose quant occurs
in `except` (token object unchanged) and resets every other position to
the zero sentinel, and it is idempotent (even as object identity, hence
also structurally). -/
theorem c8_blank (sp : Spec) (x : List Char) :
    (specBlank sp x).t0 = (if '/' ∈ x then sp.t0 else none) ∧
    (specBlank sp x).t1 = (if '#' ∈ x then sp.t1 else none) ∧
    (specBlank sp x).t2 = (if '!' ∈ x then sp.t2 else none) ∧
    (specBlank sp x).t3 = (if '.' ∈ x then sp.t3 else none) ∧
    specBlank (specBlank sp x) x = specBlank sp x ∧
    specEquiv (specBlank (specBlank sp x) x) (specBlank sp x) = true := by
  have hid : specBlank (specBlank sp x) x = specBlank sp x := by
    simp only [specBlank]
    split_ifs <;> rfl
  refine ⟨rfl, rfl, rfl, rfl, hid, ?_⟩
  rw [hid]
  exact specEquiv_refl _

/-- C10: every falsy constructor input — `undefined`, `null`, `false`,
`0`, and the empty string — is accepted (the empty string without ever
reaching the grammar match) and yields the empty Specifier, whose
`isEmpty` is true. -/
theorem c10_falsy_inputs :
    specNew .undef = some emptySpec ∧ specNew .nullV = some emptySpec ∧
    specNew .falseV = some emptySpec ∧ specNew (.numV 0) = some emptySpec ∧
    specNew (.strV []) = some emptySpec ∧
    specIsEmpty emptySpec = true := by decide

end Swarm
